import Mathlib

/-!
# Verification of the go-sudoku-retro core engine

Shallow embedding of the Sudoku board (`src/game/sudoku.go`) and the puzzle
generator (`src/game` generator file) into Lean 4, together with proofs of the
specification's testable properties.

Modelling conventions:
* Go's `[9][9]int` board is a function `Fin 9 → Fin 9 → Int`.
* Go methods that mutate their receiver are pure functions returning the new
  board paired with the Go return value.
* Go's `math/rand.Rand` is modelled as a deterministic stream of naturals
  determined by the seed together with a position counter; `Intn n` reads the
  next stream element reduced mod `n` (hence a value in `[0, n)` for `n > 0`),
  which is the only property of `math/rand` the code relies on.
* The recursive backtracking `fillBoard` is embedded with an explicit fuel
  parameter bounding the depth of the recursive call tree; `none` marks fuel
  exhaustion.  It is proved below that fuel `CountEmptyCells s + 1` (hence 82
  for a fresh board) is never exhausted, so the fuel is not an extra failure
  mode of the model.
-/

/-- The 9x9 Sudoku board; 0 represents an empty cell (from `type Sudoku struct`). -/
structure Sudoku where
  Board : Fin 9 → Fin 9 → Int

/-- Pointwise update of the board grid (the effect of a Go assignment
`s.Board[row][col] = value` for in-range indices). -/
def updateBoard (s : Sudoku) (row col : Fin 9) (value : Int) : Sudoku :=
  ⟨Function.update s.Board row (Function.update (s.Board row) col value)⟩

/-- `NewSudoku` creates a new empty Sudoku board (all cells zero). -/
def NewSudoku : Sudoku := ⟨fun _ _ => 0⟩

/-- `NewSudokuWithPuzzle` creates a Sudoku board with a predefined puzzle. -/
def NewSudokuWithPuzzle (puzzle : Fin 9 → Fin 9 → Int) : Sudoku := ⟨puzzle⟩

/-- `isValidPosition`: row and col are in `[0, 8]` (Go bounds check,
`row >= 0 && row < 9 && col >= 0 && col < 9`). -/
abbrev Sudoku.isValidPosition (row col : Int) : Prop :=
  0 ≤ row ∧ row < 9 ∧ 0 ≤ col ∧ col < 9

/-- `isValidValue`: value in `[0, 9]` (Go `value >= 0 && value <= 9`). -/
abbrev Sudoku.isValidValue (value : Int) : Prop :=
  0 ≤ value ∧ value ≤ 9

/-- Conversion of an in-range Go `int` index to a `Fin 9`. -/
def toFin (r : Int) (h1 : 0 ≤ r) (h2 : r < 9) : Fin 9 :=
  ⟨r.toNat, by omega⟩

/-- `SetCell` sets a value at the given position; returns the updated board and
the Go boolean result.  Mirrors the bounds checks of the source. -/
def Sudoku.SetCell (s : Sudoku) (row col value : Int) : Sudoku × Bool :=
  if h : Sudoku.isValidPosition row col ∧ Sudoku.isValidValue value then
    (updateBoard s (toFin row h.1.1 h.1.2.1) (toFin col h.1.2.2.1 h.1.2.2.2) value, true)
  else
    (s, false)

/-- `GetCell` returns the value at the given position, or the sentinel -1 for
an invalid position. -/
def Sudoku.GetCell (s : Sudoku) (row col : Int) : Int :=
  if h : Sudoku.isValidPosition row col then
    s.Board (toFin row h.1 h.2.1) (toFin col h.2.2.1 h.2.2.2)
  else
    -1

/-- `ClearCell` clears the cell at the given position (sets it to 0). -/
def Sudoku.ClearCell (s : Sudoku) (row col : Int) : Sudoku × Bool :=
  if h : Sudoku.isValidPosition row col then
    (updateBoard s (toFin row h.1 h.2.1) (toFin col h.2.2.1 h.2.2.2) 0, true)
  else
    (s, false)

/-- `IsEmpty` checks if a cell is empty (`GetCell(row, col) == 0`). -/
def Sudoku.IsEmpty (s : Sudoku) (row col : Int) : Bool :=
  decide (s.GetCell row col = 0)

/-- `isValidPlacement` checks value at (row, col) against all *other* cells of
the same row, the same column and the same 3x3 box.  The three universal
quantifiers embed the three Go loops: the box loop runs `i` from `(row/3)*3`
to `(row/3)*3 + 2`, i.e. over exactly the `i` with `i / 3 = row / 3`. -/
def Sudoku.isValidPlacement (s : Sudoku) (row col : Fin 9) (value : Int) : Bool :=
  if value = 0 then
    true
  else
    decide (∀ j : Fin 9, j ≠ col → s.Board row j ≠ value) &&
    decide (∀ i : Fin 9, i ≠ row → s.Board i col ≠ value) &&
    decide (∀ i j : Fin 9, (i : ℕ) / 3 = (row : ℕ) / 3 → (j : ℕ) / 3 = (col : ℕ) / 3 →
      (i ≠ row ∨ j ≠ col) → s.Board i j ≠ value)

/-- `IsValidMove` checks if placing a value at a position is valid: after the
bounds checks it temporarily places the value, runs `isValidPlacement`, and
restores the original value, returning the (restored) board and the result. -/
def Sudoku.IsValidMove (s : Sudoku) (row col value : Int) : Sudoku × Bool :=
  if h : Sudoku.isValidPosition row col ∧ Sudoku.isValidValue value then
    let r := toFin row h.1.1 h.1.2.1
    let c := toFin col h.1.2.2.1 h.1.2.2.2
    let original := s.Board r c
    let s1 := updateBoard s r c value
    let valid := s1.isValidPlacement r c value
    let s2 := updateBoard s1 r c original
    (s2, valid)
  else
    (s, false)

/-- `IsValid` checks that every non-zero cell passes `isValidPlacement`. -/
def Sudoku.IsValid (s : Sudoku) : Bool :=
  decide (∀ i j : Fin 9, s.Board i j ≠ 0 → s.isValidPlacement i j (s.Board i j) = true)

/-- `IsComplete`: all cells filled and the board is valid. -/
def Sudoku.IsComplete (s : Sudoku) : Bool :=
  decide (∀ i j : Fin 9, s.Board i j ≠ 0) && s.IsValid

/-- `CountEmptyCells` counts the number of empty cells. -/
def CountEmptyCells (s : Sudoku) : Nat :=
  (Finset.univ.filter fun p : Fin 9 × Fin 9 => s.Board p.1 p.2 = 0).card

/-- `GetSamplePuzzle`: the fixed sample puzzle from the source. -/
def GetSamplePuzzle : Fin 9 → Fin 9 → Int :=
  ![![5, 3, 0, 0, 7, 0, 0, 0, 0],
    ![6, 0, 0, 1, 9, 5, 0, 0, 0],
    ![0, 9, 8, 0, 0, 0, 0, 6, 0],
    ![8, 0, 0, 0, 6, 0, 0, 0, 3],
    ![4, 0, 0, 8, 0, 3, 0, 0, 1],
    ![7, 0, 0, 0, 2, 0, 0, 0, 6],
    ![0, 6, 0, 0, 0, 0, 2, 8, 0],
    ![0, 0, 0, 4, 1, 9, 0, 0, 5],
    ![0, 0, 0, 0, 8, 0, 0, 7, 9]]

/-- `GetSampleSolution`: the canonical solved grid from the source. -/
def GetSampleSolution : Fin 9 → Fin 9 → Int :=
  ![![5, 3, 4, 6, 7, 8, 9, 1, 2],
    ![6, 7, 2, 1, 9, 5, 3, 4, 8],
    ![1, 9, 8, 3, 4, 2, 5, 6, 7],
    ![8, 5, 9, 7, 6, 1, 4, 2, 3],
    ![4, 2, 6, 8, 5, 3, 7, 9, 1],
    ![7, 1, 3, 9, 2, 4, 8, 5, 6],
    ![9, 6, 1, 5, 3, 7, 2, 8, 4],
    ![2, 8, 7, 4, 1, 9, 6, 3, 5],
    ![3, 4, 5, 2, 8, 6, 1, 7, 9]]

/-! ## The generator -/

/-- Model of Go's `math/rand.Rand`: a deterministic stream of naturals fixed by
the seed, plus a read position. -/
structure RNG where
  seq : Nat → Nat
  pos : Nat

/-- Model of `rand.Intn n`: the next stream element reduced mod `n`, so a value
in `[0, n)` for `n > 0` (the only property of `Intn` the generator uses). -/
def RNG.intn (g : RNG) (n : Nat) : Nat × RNG :=
  (g.seq g.pos % n, ⟨g.seq, g.pos + 1⟩)

/-- `Generator` holds the single pseudo-random source. -/
structure Generator where
  rand : RNG

/-- `NewGeneratorWithSeed` creates a generator with a specific seed.  The
concrete stream stands in for `rand.New(rand.NewSource(seed))`; all that
matters is that it is a pure function of the seed. -/
def NewGeneratorWithSeed (seed : Int) : Generator :=
  ⟨⟨fun k => (seed.natAbs + k + 1) * 2654435761 % 4294967296, 0⟩⟩

/-- The Fisher-Yates loop shared by `getRandomNumbers` and `shufflePositions`:
`for i := len-1; i > 0; i-- { j := rand.Intn(i+1); swap(arr[i], arr[j]) }`.
The array state is tracked as the permutation `σ` of start indices such that
`arr[k] = init[σ k]`; swapping entries `i` and `j` composes with the
transposition `(i j)`. -/
def fyLoop (n : Nat) (g : RNG) (σ : Equiv.Perm (Fin n)) :
    (i : Nat) → i < n → RNG × Equiv.Perm (Fin n)
  | 0, _ => (g, σ)
  | i + 1, h =>
    let p := g.intn (i + 2)
    let jF : Fin n := ⟨p.1, by
      have hj : p.1 < i + 2 := Nat.mod_lt _ (by omega)
      omega⟩
    fyLoop n p.2 (σ * Equiv.swap ⟨i + 1, h⟩ jF) i (by omega)

/-- `getRandomNumbers` returns the numbers 1-9 in a shuffled order; the initial
array holds `k + 1` at index `k`. -/
def getRandomNumbers (g : RNG) : RNG × List Int :=
  let (g', σ) := fyLoop 9 g 1 8 (by omega)
  (g', (List.finRange 9).map fun k => ((σ k : Fin 9) : ℕ) + 1)

/-- Initial contents of the `positions` slice of `removeCells`: the 81 cell
coordinates in row-major order, so index `k` holds `(k / 9, k % 9)`. -/
def posInit (k : Fin 81) : Int × Int :=
  (((k : ℕ) / 9 : ℕ), ((k : ℕ) % 9 : ℕ))

/-- `shufflePositions` (combined with building the position list): the 81
coordinates after the Fisher-Yates shuffle. -/
def shufflePositions (g : RNG) : RNG × List (Int × Int) :=
  let (g', σ) := fyLoop 81 g 1 80 (by omega)
  (g', (List.finRange 81).map fun k => posInit (σ k))

/-- The row-major list of all cells, as scanned by `findEmptyCell`. -/
def allCells : List (Fin 9 × Fin 9) :=
  (List.finRange 9).flatMap fun i => (List.finRange 9).map fun j => (i, j)

/-- `findEmptyCell` finds the first empty cell in row-major order, or
`(-1, -1)` if the board is full. -/
def findEmptyCell (s : Sudoku) : Int × Int :=
  match allCells.find? (fun p => s.Board p.1 p.2 == 0) with
  | some p => (((p.1 : ℕ) : ℤ), ((p.2 : ℕ) : ℤ))
  | none => (-1, -1)

/-- The candidate loop of `fillBoard`: try each number of `nums` at the empty
cell `(row, col)`; place it if `IsValidMove` holds, recurse through `fill`,
and on failure clear the cell again and try the next number.  `fill` is the
recursive occurrence of `fillBoard` (at one fuel less). -/
def tryNums (fill : Generator → Sudoku → Option (Generator × Sudoku × Bool))
    (g : Generator) (s : Sudoku) (row col : Int) :
    List Int → Option (Generator × Sudoku × Bool)
  | [] => some (g, s, false)
  | num :: rest =>
    if (s.IsValidMove row col num).2 then
      match fill g (s.SetCell row col num).1 with
      | some (g₂, s₂, true) => some (g₂, s₂, true)
      | some (g₂, s₂, false) => tryNums fill g₂ (s₂.ClearCell row col).1 row col rest
      | none => none
    else
      tryNums fill g s row col rest

/-- `fillBoard` fills the board by randomized backtracking.  The fuel bounds
the depth of the recursive call tree; `none` marks exhaustion (proved below
never to occur for fuel `> CountEmptyCells s`). -/
def fillBoard : Nat → Generator → Sudoku → Option (Generator × Sudoku × Bool)
  | 0, _, _ => none
  | fuel + 1, g, s =>
    let rc := findEmptyCell s
    if rc.1 = -1 then some (g, s, true)
    else
      let (g', nums) := getRandomNumbers g.rand
      tryNums (fillBoard fuel) ⟨g'⟩ s rc.1 rc.2 nums

/-- `GenerateComplete` runs `fillBoard` on a fresh empty board and returns the
board (the Go code ignores `fillBoard`'s boolean).  Fuel 82 suffices for the
81 empty cells (proved below), so the `none` branch is dead code. -/
def Generator.GenerateComplete (g : Generator) : Generator × Sudoku :=
  match fillBoard 82 g NewSudoku with
  | some (g', s, _) => (g', s)
  | none => (g, NewSudoku)

/-- The removal loop of `removeCells`: walk the shuffled positions, clearing
each not-yet-empty cell, until `cellsToRemove` cells have been removed or the
list is exhausted. -/
def removeLoop (cellsToRemove : Int) : Sudoku → Int → List (Int × Int) → Sudoku
  | p, _, [] => p
  | p, removed, pos :: rest =>
    if removed ≥ cellsToRemove then p
    else if (p.IsEmpty pos.1 pos.2) then removeLoop cellsToRemove p removed rest
    else removeLoop cellsToRemove (p.ClearCell pos.1 pos.2).1 (removed + 1) rest

/-- `removeCells` removes `cellsToRemove` cells from a copy of the complete
board (the copy is the identity under value semantics). -/
def removeCells (g : Generator) (complete : Sudoku) (cellsToRemove : Int) :
    Generator × Sudoku :=
  let (g', positions) := shufflePositions g.rand
  (⟨g'⟩, removeLoop cellsToRemove complete 0 positions)

/-- The `Difficulty` values (Go `type Difficulty int` with iota constants). -/
def Easy : Int := 0

/-- Medium difficulty (iota value 1). -/
def Medium : Int := 1

/-- Hard difficulty (iota value 2). -/
def Hard : Int := 2

/-- Expert difficulty (iota value 3). -/
def Expert : Int := 3

/-- `createPuzzle`: pick the number of cells to remove from the difficulty's
range (drawing one `Intn` from the random source), defaulting to 40 for any
other `Difficulty` value, then remove them. -/
def createPuzzle (g : Generator) (complete : Sudoku) (difficulty : Int) :
    Generator × Sudoku :=
  let (cellsToRemove, g₂) : Int × Generator :=
    if difficulty = Easy then
      let (j, r') := g.rand.intn 11; (35 + (j : ℤ), ⟨r'⟩)
    else if difficulty = Medium then
      let (j, r') := g.rand.intn 10; (46 + (j : ℤ), ⟨r'⟩)
    else if difficulty = Hard then
      let (j, r') := g.rand.intn 10; (50 + (j : ℤ), ⟨r'⟩)
    else if difficulty = Expert then
      let (j, r') := g.rand.intn 10; (54 + (j : ℤ), ⟨r'⟩)
    else
      (40, g)
  removeCells g₂ complete cellsToRemove

/-- `GeneratePuzzle` generates a complete solution, then removes cells
according to the difficulty. -/
def Generator.GeneratePuzzle (g : Generator) (difficulty : Int) :
    Generator × Sudoku :=
  let (g', complete) := g.GenerateComplete
  createPuzzle g' complete difficulty

/-- `GeneratePuzzleWithEmptyRatio`: clamp the ratio to `[0, 1]`, generate a
complete solution, and remove `int(81 * ratio)` cells.  The ratio is modelled
as a rational; Go's `int(...)` conversion truncates toward zero, which equals
`Int.floor` here because the clamped ratio is non-negative. -/
def Generator.GeneratePuzzleWithEmptyRatio (g : Generator) (emptyRatio : ℚ) :
    Generator × Sudoku :=
  let r1 := if emptyRatio < 0 then 0 else emptyRatio
  let r2 := if r1 > 1 then 1 else r1
  let (g', complete) := g.GenerateComplete
  let cellsToRemove : Int := Int.floor ((81 : ℚ) * r2)
  removeCells g' complete cellsToRemove

/-- A call made to a generator, for the determinism property. -/
inductive GenCall
  | complete
  | puzzle (difficulty : Int)

/-- Run a sequence of generation calls, collecting the produced boards. -/
def runCalls (g : Generator) : List GenCall → List Sudoku
  | [] => []
  | GenCall.complete :: rest =>
    let (g', s) := g.GenerateComplete
    s :: runCalls g' rest
  | GenCall.puzzle d :: rest =>
    let (g', s) := g.GeneratePuzzle d
    s :: runCalls g' rest

/-- The "sees" relation: cell `(i', j')` is one of the *other* cells examined
by `isValidPlacement` for the cell `(i, j)`: same row, same column, or same
3x3 box. -/
def sees (i j i' j' : Fin 9) : Prop :=
  (i' = i ∧ j' ≠ j) ∨ (j' = j ∧ i' ≠ i) ∨
    (((i' : ℕ) / 3 = (i : ℕ) / 3 ∧ (j' : ℕ) / 3 = (j : ℕ) / 3) ∧ (i' ≠ i ∨ j' ≠ j))

/-- All cells hold values in `[0, 9]` (invariant of every board the generator
builds). -/
def boardRange (s : Sudoku) : Prop :=
  ∀ i j : Fin 9, 0 ≤ s.Board i j ∧ s.Board i j ≤ 9

/-- The multiset `{1..9}` of Sudoku digits. -/
def nineVals : Multiset ℤ := {1, 2, 3, 4, 5, 6, 7, 8, 9}

/-- The multiset of the values of row `r`. -/
def rowVals (s : Sudoku) (r : Fin 9) : Multiset ℤ :=
  Multiset.map (fun j => s.Board r j) Finset.univ.val

/-- The multiset of the values of column `c`. -/
def colVals (s : Sudoku) (c : Fin 9) : Multiset ℤ :=
  Multiset.map (fun i => s.Board i c) Finset.univ.val

/-- Cell index within a band: the 3x3 box `(br, bc)` consists of the cells
`(boxCell br p₁, boxCell bc p₂)`. -/
def boxCell (b : Fin 3) (p : Fin 3) : Fin 9 :=
  ⟨3 * b.val + p.val, by omega⟩

/-- The multiset of the values of the 3x3 box `(br, bc)`. -/
def boxVals (s : Sudoku) (br bc : Fin 3) : Multiset ℤ :=
  Multiset.map (fun p : Fin 3 × Fin 3 => s.Board (boxCell br p.1) (boxCell bc p.2))
    Finset.univ.val

/-- The clamping of the empty-cell ratio to `[0, 1]` performed by
`GeneratePuzzleWithEmptyRatio` (two successive Go `if` statements). -/
def clampRatio (ratio : ℚ) : ℚ :=
  if (if ratio < 0 then 0 else ratio) > 1 then 1
  else if ratio < 0 then 0 else ratio

/-! ## Basic board lemmas -/

theorem Sudoku.ext_theorem {s t : Sudoku} (h : s.Board = t.Board) : s = t := by
  cases s; cases t; simp_all

theorem updateBoard_apply (s : Sudoku) (r c : Fin 9) (v : Int) (i j : Fin 9) :
    (updateBoard s r c v).Board i j = if i = r ∧ j = c then v else s.Board i j := by
  show Function.update s.Board r (Function.update (s.Board r) c v) i j = _
  by_cases hi : i = r
  · subst hi
    rw [Function.update_same]
    by_cases hj : j = c
    · subst hj; rw [Function.update_same, if_pos ⟨rfl, rfl⟩]
    · rw [Function.update_noteq hj, if_neg (by tauto)]
  · rw [Function.update_noteq hi, if_neg (by tauto)]

theorem updateBoard_apply_same (s : Sudoku) (r c : Fin 9) (v : Int) :
    (updateBoard s r c v).Board r c = v := by
  simp [updateBoard_apply]

theorem updateBoard_restore (s : Sudoku) (r c : Fin 9) (v : Int) :
    updateBoard (updateBoard s r c v) r c (s.Board r c) = s := by
  apply Sudoku.ext_theorem
  funext i j
  rw [updateBoard_apply, updateBoard_apply]
  by_cases h : i = r ∧ j = c
  · rw [if_pos h, h.1, h.2]
  · rw [if_neg h, if_neg h]

theorem toFin_coe (i : Fin 9) (h1 : (0:ℤ) ≤ ((i:ℕ):ℤ)) (h2 : ((i:ℕ):ℤ) < 9) :
    toFin ((i:ℕ):ℤ) h1 h2 = i := by
  apply Fin.ext
  simp [toFin]

theorem isValidPosition_coe (i j : Fin 9) :
    Sudoku.isValidPosition ((i:ℕ):ℤ) ((j:ℕ):ℤ) := by
  have hi := i.isLt
  have hj := j.isLt
  refine ⟨by omega, by omega, by omega, by omega⟩

theorem SetCell_coe (s : Sudoku) (i j : Fin 9) (v : Int) (hv : Sudoku.isValidValue v) :
    s.SetCell ((i:ℕ):ℤ) ((j:ℕ):ℤ) v = (updateBoard s i j v, true) := by
  rw [Sudoku.SetCell, dif_pos ⟨isValidPosition_coe i j, hv⟩]
  rw [toFin_coe, toFin_coe]

theorem GetCell_coe (s : Sudoku) (i j : Fin 9) :
    s.GetCell ((i:ℕ):ℤ) ((j:ℕ):ℤ) = s.Board i j := by
  rw [Sudoku.GetCell, dif_pos (isValidPosition_coe i j)]
  rw [toFin_coe, toFin_coe]

theorem ClearCell_coe (s : Sudoku) (i j : Fin 9) :
    s.ClearCell ((i:ℕ):ℤ) ((j:ℕ):ℤ) = (updateBoard s i j 0, true) := by
  rw [Sudoku.ClearCell, dif_pos (isValidPosition_coe i j)]
  rw [toFin_coe, toFin_coe]

theorem IsEmpty_coe (s : Sudoku) (i j : Fin 9) :
    s.IsEmpty ((i:ℕ):ℤ) ((j:ℕ):ℤ) = decide (s.Board i j = 0) := by
  rw [Sudoku.IsEmpty, GetCell_coe]

theorem sees_symm {i j i' j' : Fin 9} (h : sees i j i' j') : sees i' j' i j := by
  rcases h with ⟨h1, h2⟩ | ⟨h1, h2⟩ | ⟨⟨d1, d2⟩, h3⟩
  · exact Or.inl ⟨h1.symm, fun hh => h2 hh.symm⟩
  · exact Or.inr (Or.inl ⟨h1.symm, fun hh => h2 hh.symm⟩)
  · refine Or.inr (Or.inr ⟨⟨d1.symm, d2.symm⟩, ?_⟩)
    rcases h3 with h3 | h3
    · exact Or.inl fun hh => h3 hh.symm
    · exact Or.inr fun hh => h3 hh.symm

theorem sees_ne {i j i' j' : Fin 9} (h : sees i j i' j') : ¬(i' = i ∧ j' = j) := by
  rcases h with ⟨h1, h2⟩ | ⟨h1, h2⟩ | ⟨_, h3⟩
  · exact fun hc => h2 hc.2
  · exact fun hc => h2 hc.1
  · rcases h3 with h3 | h3
    · exact fun hc => h3 hc.1
    · exact fun hc => h3 hc.2

theorem isValidPlacement_eq_true_iff (s : Sudoku) (i j : Fin 9) (v : Int) (hv : v ≠ 0) :
    s.isValidPlacement i j v = true ↔
      ∀ i' j' : Fin 9, sees i j i' j' → s.Board i' j' ≠ v := by
  rw [Sudoku.isValidPlacement, if_neg hv]
  simp only [Bool.and_eq_true, decide_eq_true_eq]
  constructor
  · rintro ⟨⟨hr, hc⟩, hb⟩ i' j' hsee
    rcases hsee with ⟨rfl, h2⟩ | ⟨rfl, h2⟩ | ⟨⟨d1, d2⟩, h3⟩
    · exact hr j' h2
    · exact hc i' h2
    · exact hb i' j' d1 d2 h3
  · intro h
    exact ⟨⟨fun j' hj => h i j' (Or.inl ⟨rfl, hj⟩),
            fun i' hi => h i' j (Or.inr (Or.inl ⟨rfl, hi⟩))⟩,
           fun i' j' d1 d2 hne => h i' j' (Or.inr (Or.inr ⟨⟨d1, d2⟩, hne⟩))⟩

theorem isValidPlacement_zero (s : Sudoku) (i j : Fin 9) :
    s.isValidPlacement i j 0 = true := by
  rw [Sudoku.isValidPlacement, if_pos rfl]

theorem isValidPlacement_updateBoard_self (s : Sudoku) (r c : Fin 9) (v w : Int) :
    (updateBoard s r c w).isValidPlacement r c v = s.isValidPlacement r c v := by
  by_cases hv : v = 0
  · subst hv; rw [isValidPlacement_zero, isValidPlacement_zero]
  · rw [Bool.eq_iff_iff, isValidPlacement_eq_true_iff _ _ _ _ hv,
      isValidPlacement_eq_true_iff _ _ _ _ hv]
    constructor <;> intro h i' j' hsee <;> have hne := sees_ne hsee
    · have := h i' j' hsee
      rwa [updateBoard_apply, if_neg hne] at this
    · rw [updateBoard_apply, if_neg hne]
      exact h i' j' hsee

theorem IsValidMove_fst (s : Sudoku) (row col value : Int) :
    (s.IsValidMove row col value).1 = s := by
  rw [Sudoku.IsValidMove]
  split
  · exact updateBoard_restore s _ _ value
  · rfl

theorem IsValidMove_snd_coe (s : Sudoku) (i j : Fin 9) (v : Int)
    (hv : Sudoku.isValidValue v) :
    (s.IsValidMove ((i:ℕ):ℤ) ((j:ℕ):ℤ) v).2 = s.isValidPlacement i j v := by
  rw [Sudoku.IsValidMove, dif_pos ⟨isValidPosition_coe i j, hv⟩]
  show (updateBoard s (toFin _ _ _) (toFin _ _ _) v).isValidPlacement _ _ v = _
  rw [toFin_coe, toFin_coe, isValidPlacement_updateBoard_self]

theorem IsValidMove_snd_true (s : Sudoku) (row col value : Int)
    (h : (s.IsValidMove row col value).2 = true) :
    Sudoku.isValidPosition row col ∧ Sudoku.isValidValue value := by
  by_contra hc
  rw [Sudoku.IsValidMove, dif_neg hc] at h
  exact Bool.false_ne_true h

theorem IsValid_eq_true_iff (s : Sudoku) :
    s.IsValid = true ↔
      ∀ i j : Fin 9, s.Board i j ≠ 0 → s.isValidPlacement i j (s.Board i j) = true := by
  simp [Sudoku.IsValid]

/-! ## Claims C2, C3, C8, C9 -/

/-- C2: for in-range `(row, col)` and `value ∈ {1..9}`, `IsValidMove` returns
false iff the value already appears in some *other* cell of the same row,
column, or 3x3 box; on the fixed sample puzzle, `IsValidMove(0,2,4)` is true
and `IsValidMove(0,2,5)` is false. -/
theorem isValidMove_conflict_spec :
    (∀ (s : Sudoku) (i j : Fin 9) (v : Int), 1 ≤ v → v ≤ 9 →
      ((s.IsValidMove ((i:ℕ):ℤ) ((j:ℕ):ℤ) v).2 = false ↔
        ∃ i' j' : Fin 9, sees i j i' j' ∧ s.Board i' j' = v)) ∧
    ((NewSudokuWithPuzzle GetSamplePuzzle).IsValidMove 0 2 4).2 = true ∧
    ((NewSudokuWithPuzzle GetSamplePuzzle).IsValidMove 0 2 5).2 = false := by
  refine ⟨fun s i j v hv1 hv2 => ?_, by decide, by decide⟩
  rw [IsValidMove_snd_coe s i j v ⟨by omega, hv2⟩]
  rw [← Bool.not_eq_true, isValidPlacement_eq_true_iff s i j v (by omega)]
  push_neg
  constructor
  · rintro ⟨i', j', h1, h2⟩; exact ⟨i', j', h1, h2⟩
  · rintro ⟨i', j', h1, h2⟩; exact ⟨i', j', h1, h2⟩

/-- Witness for C2 at the sample board, row 0, col 2, value 5: the conflict
with the 5 at cell (0,0). -/
theorem isValidMove_conflict_spec_witness :
    ((NewSudokuWithPuzzle GetSamplePuzzle).IsValidMove ((((0:Fin 9)):ℕ):ℤ)
      ((((2:Fin 9)):ℕ):ℤ) 5).2 = false :=
  (isValidMove_conflict_spec.1 (NewSudokuWithPuzzle GetSamplePuzzle) 0 2 5
    (by decide) (by decide)).mpr ⟨0, 0, Or.inl ⟨rfl, by decide⟩, by decide⟩

/-- C3: `IsValidMove` never mutates the board: the board it returns is the
one it was given, for all integer arguments and any outcome. -/
theorem isValidMove_no_mutation :
    ∀ (s : Sudoku) (row col value : Int), (s.IsValidMove row col value).1 = s :=
  IsValidMove_fst

/-- C8: `IsComplete` is true iff no cell is 0 and `IsValid` is true; the board
built from the canonical sample solution is complete. -/
theorem isComplete_spec :
    (∀ s : Sudoku, s.IsComplete = true ↔
      ((∀ i j : Fin 9, s.Board i j ≠ 0) ∧ s.IsValid = true)) ∧
    (NewSudokuWithPuzzle GetSampleSolution).IsComplete = true := by
  refine ⟨fun s => ?_, by decide⟩
  rw [Sudoku.IsComplete, Bool.and_eq_true, decide_eq_true_eq]

/-- Witness for C8: the sample solution satisfies both sides of the
equivalence. -/
theorem isComplete_spec_witness :
    (∀ i j : Fin 9, (NewSudokuWithPuzzle GetSampleSolution).Board i j ≠ 0) ∧
      (NewSudokuWithPuzzle GetSampleSolution).IsValid = true :=
  (isComplete_spec.1 (NewSudokuWithPuzzle GetSampleSolution)).mp isComplete_spec.2

/-! ## Counting lemmas -/

theorem countEmpty_le (s : Sudoku) : CountEmptyCells s ≤ 81 := by
  have h := Finset.card_filter_le Finset.univ
    (fun p : Fin 9 × Fin 9 => s.Board p.1 p.2 = 0)
  simpa [CountEmptyCells] using h

theorem countEmpty_clear (s : Sudoku) (r c : Fin 9) (h : s.Board r c ≠ 0) :
    CountEmptyCells (updateBoard s r c 0) = CountEmptyCells s + 1 := by
  unfold CountEmptyCells
  have hset : (Finset.univ.filter fun p : Fin 9 × Fin 9 =>
      (updateBoard s r c 0).Board p.1 p.2 = 0) =
      insert (r, c) (Finset.univ.filter fun p : Fin 9 × Fin 9 =>
        s.Board p.1 p.2 = 0) := by
    ext p
    simp only [Finset.mem_filter, Finset.mem_insert, Finset.mem_univ, true_and,
      updateBoard_apply]
    by_cases hp : p.1 = r ∧ p.2 = c
    · simp [if_pos hp, Prod.ext_iff, hp.1, hp.2]
    · have : p ≠ (r, c) := by
        intro hc; exact hp ⟨by rw [hc], by rw [hc]⟩
      simp [if_neg hp, this]
  rw [hset, Finset.card_insert_of_not_mem]
  simp [Finset.mem_filter, h]

theorem countEmpty_fill (s : Sudoku) (r c : Fin 9) (v : Int)
    (h : s.Board r c = 0) (hv : v ≠ 0) :
    CountEmptyCells s = CountEmptyCells (updateBoard s r c v) + 1 := by
  unfold CountEmptyCells
  have hset : (Finset.univ.filter fun p : Fin 9 × Fin 9 => s.Board p.1 p.2 = 0) =
      insert (r, c) (Finset.univ.filter fun p : Fin 9 × Fin 9 =>
        (updateBoard s r c v).Board p.1 p.2 = 0) := by
    ext p
    simp only [Finset.mem_filter, Finset.mem_insert, Finset.mem_univ, true_and,
      updateBoard_apply]
    by_cases hp : p.1 = r ∧ p.2 = c
    · simp only [if_pos hp, Prod.ext_iff]
      constructor
      · intro _; exact Or.inl ⟨hp.1, hp.2⟩
      · intro _; rw [hp.1, hp.2]; exact h
    · have : p ≠ (r, c) := by
        intro hc; exact hp ⟨by rw [hc], by rw [hc]⟩
      simp [if_neg hp, this]
  rw [hset, Finset.card_insert_of_not_mem]
  simp [Finset.mem_filter, updateBoard_apply_same, hv]

theorem countEmpty_eq_81 (s : Sudoku) (h : CountEmptyCells s = 81) :
    ∀ i j : Fin 9, s.Board i j = 0 := by
  intro i j
  have hcard : Fintype.card (Fin 9 × Fin 9) = 81 := by simp
  have huniv : (Finset.univ.filter fun p : Fin 9 × Fin 9 => s.Board p.1 p.2 = 0) =
      Finset.univ := by
    apply Finset.eq_univ_of_card
    rw [← hcard] at h
    exact h
  have : (i, j) ∈ Finset.univ.filter fun p : Fin 9 × Fin 9 => s.Board p.1 p.2 = 0 := by
    rw [huniv]; exact Finset.mem_univ _
  exact (Finset.mem_filter.mp this).2

theorem countEmpty_eq_zero (s : Sudoku) (h : ∀ i j : Fin 9, s.Board i j ≠ 0) :
    CountEmptyCells s = 0 := by
  unfold CountEmptyCells
  rw [Finset.card_eq_zero, Finset.filter_eq_empty_iff]
  intro p _
  exact h p.1 p.2

/-! ## findEmptyCell lemmas -/

theorem mem_allCells (p : Fin 9 × Fin 9) : p ∈ allCells := by
  rcases p with ⟨i, j⟩
  simp only [allCells, List.mem_flatMap, List.mem_map, List.mem_finRange]
  exact ⟨i, trivial, j, trivial, rfl⟩

theorem findEmptyCell_neg_one (s : Sudoku) (h : (findEmptyCell s).1 = -1) :
    ∀ i j : Fin 9, s.Board i j ≠ 0 := by
  intro i j
  rw [findEmptyCell] at h
  cases hf : allCells.find? (fun p => s.Board p.1 p.2 == 0) with
  | some p =>
    rw [hf] at h
    simp only at h
    omega
  | none =>
    have := List.find?_eq_none.mp hf (i, j) (mem_allCells (i, j))
    simpa using this

theorem findEmptyCell_some (s : Sudoku) (h : (findEmptyCell s).1 ≠ -1) :
    ∃ i j : Fin 9, findEmptyCell s = (((i:ℕ):ℤ), ((j:ℕ):ℤ)) ∧ s.Board i j = 0 := by
  rw [findEmptyCell] at h ⊢
  cases hf : allCells.find? (fun p => s.Board p.1 p.2 == 0) with
  | some p =>
    refine ⟨p.1, p.2, rfl, ?_⟩
    have := List.find?_some hf
    simpa using this
  | none => rw [hf] at h; exact absurd rfl h

/-! ## Shuffle lemmas -/

theorem mem_getRandomNumbers (g : RNG) (v : Int) :
    v ∈ (getRandomNumbers g).2 ↔ 1 ≤ v ∧ v ≤ 9 := by
  rw [getRandomNumbers]
  obtain ⟨g', σ⟩ := fyLoop 9 g 1 8 (by omega)
  simp only [List.mem_map, List.mem_finRange, true_and]
  constructor
  · rintro ⟨k, rfl⟩
    have := (σ k).isLt
    omega
  · rintro ⟨h1, h2⟩
    refine ⟨σ.symm ⟨(v - 1).toNat, by omega⟩, ?_⟩
    rw [Equiv.apply_symm_apply]
    simp only []
    omega

theorem posInit_injective : Function.Injective posInit := by
  intro k k' h
  rw [posInit, posInit, Prod.ext_iff] at h
  obtain ⟨h1, h2⟩ := h
  dsimp only at h1 h2
  have h1' : (k : ℕ) / 9 = (k' : ℕ) / 9 := by exact_mod_cast h1
  have h2' : (k : ℕ) % 9 = (k' : ℕ) % 9 := by exact_mod_cast h2
  apply Fin.ext
  omega

theorem shufflePositions_length (g : RNG) : (shufflePositions g).2.length = 81 := by
  rw [shufflePositions]
  obtain ⟨g', σ⟩ := fyLoop 81 g 1 80 (by omega)
  simp

theorem shufflePositions_nodup (g : RNG) : (shufflePositions g).2.Nodup := by
  rw [shufflePositions]
  obtain ⟨g', σ⟩ := fyLoop 81 g 1 80 (by omega)
  refine List.Nodup.map ?_ (List.nodup_finRange 81)
  exact posInit_injective.comp σ.injective

theorem shufflePositions_mem (g : RNG) :
    ∀ p ∈ (shufflePositions g).2, ∃ i j : Fin 9, p = (((i:ℕ):ℤ), ((j:ℕ):ℤ)) := by
  rw [shufflePositions]
  obtain ⟨g', σ⟩ := fyLoop 81 g 1 80 (by omega)
  intro p hp
  simp only [List.mem_map, List.mem_finRange, true_and] at hp
  obtain ⟨k, rfl⟩ := hp
  have hlt := (σ k).isLt
  exact ⟨⟨((σ k : Fin 81) : ℕ) / 9, by omega⟩, ⟨((σ k : Fin 81) : ℕ) % 9, by omega⟩,
    rfl⟩

/-! ## Removal-loop lemmas -/

theorem ClearCell_fst_board (p : Sudoku) (row col : Int) (i j : Fin 9) :
    (p.ClearCell row col).1.Board i j ≠ 0 →
    (p.ClearCell row col).1.Board i j = p.Board i j := by
  rw [Sudoku.ClearCell]
  split
  · show (updateBoard p _ _ 0).Board i j ≠ 0 → _
    rw [updateBoard_apply]
    split
    · intro h; exact absurd rfl h
    · intro _; rfl
  · intro _; rfl

theorem removeLoop_preserves (list : List (Int × Int)) :
    ∀ (N removed : Int) (p : Sudoku) (i j : Fin 9),
      (removeLoop N p removed list).Board i j ≠ 0 →
      (removeLoop N p removed list).Board i j = p.Board i j := by
  induction list with
  | nil => intro N removed p i j _; rfl
  | cons pos rest ih =>
    intro N removed p i j
    rw [removeLoop]
    split
    · intro _; rfl
    · split
      · exact ih N removed p i j
      · intro h
        rw [ih N (removed + 1) _ i j h]
        exact ClearCell_fst_board p pos.1 pos.2 i j
          (by rw [← ih N (removed + 1) _ i j h]; exact h)

theorem removeLoop_stop (list : List (Int × Int)) (N removed : Int) (p : Sudoku)
    (h : N ≤ removed) : removeLoop N p removed list = p := by
  cases list with
  | nil => rfl
  | cons pos rest => rw [removeLoop, if_pos (by omega)]

theorem removeLoop_count (list : List (Int × Int)) :
    ∀ (N removed : Int) (p : Sudoku),
      removed ≤ N →
      list.Nodup →
      (∀ q ∈ list, ∃ i j : Fin 9, q = (((i:ℕ):ℤ), ((j:ℕ):ℤ)) ∧ p.Board i j ≠ 0) →
      CountEmptyCells (removeLoop N p removed list)
        = CountEmptyCells p + min (N - removed).toNat list.length := by
  induction list with
  | nil => intro N removed p _ _ _; simp [removeLoop]
  | cons pos rest ih =>
    intro N removed p hle hnd hmem
    obtain ⟨fi, fj, hpos, hne⟩ := hmem pos (List.mem_cons_self pos rest)
    rw [removeLoop]
    by_cases hbr : removed ≥ N
    · rw [if_pos hbr]
      have : (N - removed).toNat = 0 := by omega
      simp [this]
    · rw [if_neg hbr]
      have hemp : p.IsEmpty pos.1 pos.2 = false := by
        rw [hpos]
        show p.IsEmpty ((fi:ℕ):ℤ) ((fj:ℕ):ℤ) = false
        rw [IsEmpty_coe, decide_eq_false_iff_not]
        exact hne
      rw [if_neg (by rw [hemp]; exact Bool.false_ne_true)]
      have hclear : (p.ClearCell pos.1 pos.2).1 = updateBoard p fi fj 0 := by
        rw [hpos]
        show (p.ClearCell ((fi:ℕ):ℤ) ((fj:ℕ):ℤ)).1 = _
        rw [ClearCell_coe]
      rw [hclear]
      have hcount := countEmpty_clear p fi fj hne
      have hrest : ∀ q ∈ rest, ∃ i j : Fin 9,
          q = (((i:ℕ):ℤ), ((j:ℕ):ℤ)) ∧ (updateBoard p fi fj 0).Board i j ≠ 0 := by
        intro q hq
        obtain ⟨i, j, hq1, hq2⟩ := hmem q (List.mem_cons_of_mem pos hq)
        refine ⟨i, j, hq1, ?_⟩
        rw [updateBoard_apply]
        have hqpos : q ≠ pos := by
          intro hc
          exact (List.nodup_cons.mp hnd).1 (hc ▸ hq)
        have : ¬(i = fi ∧ j = fj) := by
          rintro ⟨rfl, rfl⟩
          exact hqpos (hq1.trans hpos.symm)
        rw [if_neg this]
        exact hq2
      rw [ih N (removed + 1) _ (by omega) (List.nodup_cons.mp hnd).2 hrest, hcount]
      have h1 : removed < N := by omega
      simp only [List.length_cons]
      omega

/-! ## fillBoard machinery -/

theorem updateBoard_overwrite (s : Sudoku) (r c : Fin 9) (v w : Int) :
    updateBoard (updateBoard s r c v) r c w = updateBoard s r c w := by
  apply Sudoku.ext_theorem
  funext i j
  rw [updateBoard_apply, updateBoard_apply, updateBoard_apply]
  by_cases h : i = r ∧ j = c
  · rw [if_pos h, if_pos h]
  · rw [if_neg h, if_neg h, if_neg h]

theorem updateBoard_zero_of_empty (s : Sudoku) (r c : Fin 9)
    (h : s.Board r c = 0) : updateBoard s r c 0 = s := by
  apply Sudoku.ext_theorem
  funext i j
  rw [updateBoard_apply]
  by_cases hij : i = r ∧ j = c
  · rw [if_pos hij, hij.1, hij.2, h]
  · rw [if_neg hij]

theorem fillBoard_succ_none (fuel : Nat) (g : Generator) (s : Sudoku)
    (h : (findEmptyCell s).1 = -1) :
    fillBoard (fuel + 1) g s = some (g, s, true) := by
  simp only [fillBoard]
  rw [if_pos h]

theorem fillBoard_succ_some (fuel : Nat) (g : Generator) (s : Sudoku)
    (fi fj : Fin 9) (hrc : findEmptyCell s = (((fi:ℕ):ℤ), ((fj:ℕ):ℤ))) :
    fillBoard (fuel + 1) g s =
      tryNums (fillBoard fuel) ⟨(getRandomNumbers g.rand).1⟩ s
        ((fi:ℕ):ℤ) ((fj:ℕ):ℤ) (getRandomNumbers g.rand).2 := by
  simp only [fillBoard, hrc]
  rw [if_neg (by omega)]

/-- The board passed on to the next candidate after a failed placement: the
cell is set, the recursive fill restores its changes, and `ClearCell` resets
the cell, giving back the original board. -/
theorem clear_after_set (s : Sudoku) (fi fj : Fin 9) (num : Int)
    (hemp : s.Board fi fj = 0) :
    ((updateBoard s fi fj num).ClearCell ((fi:ℕ):ℤ) ((fj:ℕ):ℤ)).1 = s := by
  rw [ClearCell_coe, updateBoard_overwrite, updateBoard_zero_of_empty s fi fj hemp]

theorem tryNums_restore (fill : Generator → Sudoku → Option (Generator × Sudoku × Bool))
    (hfill : ∀ g s g₂ s₂, fill g s = some (g₂, s₂, false) → s₂ = s) :
    ∀ (nums : List Int) (g : Generator) (s : Sudoku) (fi fj : Fin 9),
      s.Board fi fj = 0 →
      ∀ g₂ s₂, tryNums fill g s ((fi:ℕ):ℤ) ((fj:ℕ):ℤ) nums = some (g₂, s₂, false) →
        s₂ = s := by
  intro nums
  induction nums with
  | nil =>
    intro g s fi fj _ g₂ s₂ h
    rw [tryNums] at h
    simp only [Option.some.injEq, Prod.mk.injEq] at h
    exact h.2.1.symm
  | cons num rest ih =>
    intro g s fi fj hemp g₂ s₂ h
    rw [tryNums] at h
    split at h
    · next hmv =>
      have hval : Sudoku.isValidValue num := (IsValidMove_snd_true s _ _ num hmv).2
      rw [SetCell_coe s fi fj num hval] at h
      cases hres : fill g (updateBoard s fi fj num) with
      | none => rw [hres] at h; simp at h
      | some trip =>
        obtain ⟨g₃, s₃, b⟩ := trip
        rw [hres] at h
        cases b with
        | true => simp at h
        | false =>
          dsimp only at h
          have hs₃ : s₃ = updateBoard s fi fj num := hfill g _ g₃ s₃ hres
          rw [hs₃, clear_after_set s fi fj num hemp] at h
          exact ih g₃ s fi fj hemp g₂ s₂ h
    · next hmv =>
      exact ih g s fi fj hemp g₂ s₂ h

theorem fillBoard_restore :
    ∀ (fuel : Nat) (g : Generator) (s : Sudoku) (g₂ : Generator) (s₂ : Sudoku),
      fillBoard fuel g s = some (g₂, s₂, false) → s₂ = s := by
  intro fuel
  induction fuel with
  | zero => intro g s g₂ s₂ h; simp [fillBoard] at h
  | succ fuel ih =>
    intro g s g₂ s₂ h
    by_cases hrc : (findEmptyCell s).1 = -1
    · rw [fillBoard_succ_none fuel g s hrc] at h
      simp at h
    · obtain ⟨fi, fj, hrc', hemp⟩ := findEmptyCell_some s hrc
      rw [fillBoard_succ_some fuel g s fi fj hrc'] at h
      exact tryNums_restore (fillBoard fuel) ih _ _ s fi fj hemp g₂ s₂ h

theorem tryNums_isSome (fill : Generator → Sudoku → Option (Generator × Sudoku × Bool))
    (hrestore : ∀ g s g₂ s₂, fill g s = some (g₂, s₂, false) → s₂ = s)
    (s : Sudoku) (fi fj : Fin 9) (hemp : s.Board fi fj = 0)
    (hsome : ∀ g num, 1 ≤ num → num ≤ 9 →
      (fill g (updateBoard s fi fj num)).isSome = true) :
    ∀ (nums : List Int), (∀ num ∈ nums, 1 ≤ num ∧ num ≤ 9) →
      ∀ g, (tryNums fill g s ((fi:ℕ):ℤ) ((fj:ℕ):ℤ) nums).isSome = true := by
  intro nums
  induction nums with
  | nil => intro _ g; rw [tryNums]; rfl
  | cons num rest ih =>
    intro hr g
    have hnum := hr num (List.mem_cons_self num rest)
    rw [tryNums]
    split
    · next hmv =>
      rw [SetCell_coe s fi fj num ⟨by omega, by omega⟩]
      cases hres : fill g (updateBoard s fi fj num) with
      | none =>
        have := hsome g num hnum.1 hnum.2
        rw [hres] at this
        simp at this
      | some trip =>
        obtain ⟨g₃, s₃, b⟩ := trip
        cases b with
        | true => rfl
        | false =>
          dsimp only
          have hs₃ : s₃ = updateBoard s fi fj num := hrestore g _ g₃ s₃ hres
          rw [hs₃, clear_after_set s fi fj num hemp]
          exact ih (fun n hn => hr n (List.mem_cons_of_mem num hn)) g₃
    · next hmv =>
      exact ih (fun n hn => hr n (List.mem_cons_of_mem num hn)) g

theorem fillBoard_isSome :
    ∀ (fuel : Nat) (s : Sudoku), CountEmptyCells s < fuel →
      ∀ g, (fillBoard fuel g s).isSome = true := by
  intro fuel
  induction fuel with
  | zero => intro s h; omega
  | succ fuel ih =>
    intro s h g
    by_cases hrc : (findEmptyCell s).1 = -1
    · rw [fillBoard_succ_none fuel g s hrc]; rfl
    · obtain ⟨fi, fj, hrc', hemp⟩ := findEmptyCell_some s hrc
      rw [fillBoard_succ_some fuel g s fi fj hrc']
      refine tryNums_isSome (fillBoard fuel) (fillBoard_restore fuel) s fi fj hemp
        (fun g' num h1 h2 => ih _ ?_ g') _
        (fun num hn => (mem_getRandomNumbers g.rand num).mp hn) _
      have := countEmpty_fill s fi fj num hemp (by omega)
      omega

theorem boardRange_update (s : Sudoku) (fi fj : Fin 9) (v : Int)
    (h : boardRange s) (hv : 0 ≤ v ∧ v ≤ 9) : boardRange (updateBoard s fi fj v) := by
  intro i j
  rw [updateBoard_apply]
  split
  · exact hv
  · exact h i j

theorem IsValid_update (s : Sudoku) (fi fj : Fin 9) (v : Int) (hv0 : v ≠ 0)
    (hval : s.IsValid = true) (hpl : s.isValidPlacement fi fj v = true) :
    (updateBoard s fi fj v).IsValid = true := by
  rw [IsValid_eq_true_iff] at hval ⊢
  intro i j hne0
  by_cases hij : i = fi ∧ j = fj
  · obtain ⟨rfl, rfl⟩ := hij
    rw [updateBoard_apply_same]
    rw [isValidPlacement_eq_true_iff _ _ _ _ hv0]
    intro i' j' hsee
    rw [updateBoard_apply, if_neg (sees_ne hsee)]
    exact (isValidPlacement_eq_true_iff s i j v hv0).mp hpl i' j' hsee
  · have hb : (updateBoard s fi fj v).Board i j = s.Board i j := by
      rw [updateBoard_apply, if_neg hij]
    rw [hb] at hne0 ⊢
    rw [isValidPlacement_eq_true_iff _ _ _ _ hne0]
    intro i' j' hsee
    rw [updateBoard_apply]
    by_cases hij' : i' = fi ∧ j' = fj
    · rw [if_pos hij']
      intro hvv
      obtain ⟨rfl, rfl⟩ := hij'
      exact (isValidPlacement_eq_true_iff s i' j' v hv0).mp hpl i j
        (sees_symm hsee) hvv.symm
    · rw [if_neg hij']
      exact (isValidPlacement_eq_true_iff s i j _ hne0).mp (hval i j hne0) i' j' hsee

theorem tryNums_sound (fill : Generator → Sudoku → Option (Generator × Sudoku × Bool))
    (hrestore : ∀ g s g₂ s₂, fill g s = some (g₂, s₂, false) → s₂ = s)
    (hsound : ∀ g s g₂ s₂, fill g s = some (g₂, s₂, true) → s.IsValid = true →
      boardRange s →
      s₂.IsValid = true ∧ boardRange s₂ ∧ ∀ i j : Fin 9, s₂.Board i j ≠ 0) :
    ∀ (nums : List Int) (g : Generator) (s : Sudoku) (fi fj : Fin 9),
      s.Board fi fj = 0 → s.IsValid = true → boardRange s →
      (∀ num ∈ nums, 1 ≤ num ∧ num ≤ 9) →
      ∀ g₂ s₂, tryNums fill g s ((fi:ℕ):ℤ) ((fj:ℕ):ℤ) nums = some (g₂, s₂, true) →
        s₂.IsValid = true ∧ boardRange s₂ ∧ ∀ i j : Fin 9, s₂.Board i j ≠ 0 := by
  intro nums
  induction nums with
  | nil =>
    intro g s fi fj _ _ _ _ g₂ s₂ h
    rw [tryNums] at h
    simp at h
  | cons num rest ih =>
    intro g s fi fj hemp hval hrange hr g₂ s₂ h
    have hnum := hr num (List.mem_cons_self num rest)
    rw [tryNums] at h
    split at h
    · next hmv =>
      rw [SetCell_coe s fi fj num ⟨by omega, by omega⟩] at h
      have hpl : s.isValidPlacement fi fj num = true := by
        rw [IsValidMove_snd_coe s fi fj num ⟨by omega, by omega⟩] at hmv
        exact hmv
      have hval1 : (updateBoard s fi fj num).IsValid = true :=
        IsValid_update s fi fj num (by omega) hval hpl
      have hrange1 : boardRange (updateBoard s fi fj num) :=
        boardRange_update s fi fj num hrange ⟨by omega, by omega⟩
      cases hres : fill g (updateBoard s fi fj num) with
      | none => rw [hres] at h; simp at h
      | some trip =>
        obtain ⟨g₃, s₃, b⟩ := trip
        rw [hres] at h
        cases b with
        | true =>
          simp only [Option.some.injEq, Prod.mk.injEq] at h
          obtain ⟨-, hs, -⟩ := h
          rw [← hs]
          exact hsound g _ g₃ s₃ hres hval1 hrange1
        | false =>
          dsimp only at h
          have hs₃ : s₃ = updateBoard s fi fj num := hrestore g _ g₃ s₃ hres
          rw [hs₃, clear_after_set s fi fj num hemp] at h
          exact ih g₃ s fi fj hemp hval hrange
            (fun n hn => hr n (List.mem_cons_of_mem num hn)) g₂ s₂ h
    · next hmv =>
      exact ih g s fi fj hemp hval hrange
        (fun n hn => hr n (List.mem_cons_of_mem num hn)) g₂ s₂ h

theorem fillBoard_sound :
    ∀ (fuel : Nat) (g : Generator) (s : Sudoku) (g₂ : Generator) (s₂ : Sudoku),
      fillBoard fuel g s = some (g₂, s₂, true) → s.IsValid = true → boardRange s →
      s₂.IsValid = true ∧ boardRange s₂ ∧ ∀ i j : Fin 9, s₂.Board i j ≠ 0 := by
  intro fuel
  induction fuel with
  | zero => intro g s g₂ s₂ h; simp [fillBoard] at h
  | succ fuel ih =>
    intro g s g₂ s₂ h hval hrange
    by_cases hrc : (findEmptyCell s).1 = -1
    · rw [fillBoard_succ_none fuel g s hrc] at h
      simp only [Option.some.injEq, Prod.mk.injEq] at h
      obtain ⟨-, hs, -⟩ := h
      rw [← hs]
      exact ⟨hval, hrange, findEmptyCell_neg_one s hrc⟩
    · obtain ⟨fi, fj, hrc', hemp⟩ := findEmptyCell_some s hrc
      rw [fillBoard_succ_some fuel g s fi fj hrc'] at h
      exact tryNums_sound (fillBoard fuel) (fillBoard_restore fuel) ih _ _ s fi fj
        hemp hval hrange
        (fun num hn => (mem_getRandomNumbers g.rand num).mp hn) g₂ s₂ h

theorem tryNums_complete (fill : Generator → Sudoku → Option (Generator × Sudoku × Bool))
    (hrestore : ∀ g s g₂ s₂, fill g s = some (g₂, s₂, false) → s₂ = s)
    (s : Sudoku) (fi fj : Fin 9) (hemp : s.Board fi fj = 0)
    (hsome : ∀ g num, 1 ≤ num → num ≤ 9 →
      (fill g (updateBoard s fi fj num)).isSome = true)
    (v : Int) (hv1 : 1 ≤ v) (hv2 : v ≤ 9)
    (hmv : (s.IsValidMove ((fi:ℕ):ℤ) ((fj:ℕ):ℤ) v).2 = true)
    (hsucc : ∀ g, ∃ g₂ s₂, fill g (updateBoard s fi fj v) = some (g₂, s₂, true)) :
    ∀ (nums : List Int), v ∈ nums → (∀ num ∈ nums, 1 ≤ num ∧ num ≤ 9) →
      ∀ g, ∃ g₂ s₂,
        tryNums fill g s ((fi:ℕ):ℤ) ((fj:ℕ):ℤ) nums = some (g₂, s₂, true) := by
  intro nums
  induction nums with
  | nil => intro hvm; simp at hvm
  | cons num rest ih =>
    intro hvm hr g
    have hnum := hr num (List.mem_cons_self num rest)
    rw [tryNums]
    split
    · next hmvnum =>
      rw [SetCell_coe s fi fj num ⟨by omega, by omega⟩]
      cases hres : fill g (updateBoard s fi fj num) with
      | none =>
        have := hsome g num hnum.1 hnum.2
        rw [hres] at this
        simp at this
      | some trip =>
        obtain ⟨g₃, s₃, b⟩ := trip
        cases b with
        | true => exact ⟨g₃, s₃, rfl⟩
        | false =>
          dsimp only
          have hnumv : num ≠ v := by
            rintro rfl
            obtain ⟨g₂', s₂', hsu⟩ := hsucc g
            rw [hres] at hsu
            simp at hsu
          have hvrest : v ∈ rest := by
            rcases List.mem_cons.mp hvm with hc | hc
            · exact absurd hc.symm hnumv
            · exact hc
          have hs₃ : s₃ = updateBoard s fi fj num := hrestore g _ g₃ s₃ hres
          rw [hs₃, clear_after_set s fi fj num hemp]
          exact ih hvrest (fun n hn => hr n (List.mem_cons_of_mem num hn)) g₃
    · next hmvnum =>
      have hnumv : num ≠ v := by
        rintro rfl
        exact hmvnum hmv
      have hvrest : v ∈ rest := by
        rcases List.mem_cons.mp hvm with hc | hc
        · exact absurd hc.symm hnumv
        · exact hc
      exact ih hvrest (fun n hn => hr n (List.mem_cons_of_mem num hn)) g

theorem fillBoard_complete :
    ∀ (fuel : Nat) (s : Sudoku), CountEmptyCells s < fuel →
      ∀ t : Sudoku, (∀ i j : Fin 9, 1 ≤ t.Board i j ∧ t.Board i j ≤ 9) →
      t.IsValid = true →
      (∀ i j : Fin 9, s.Board i j ≠ 0 → t.Board i j = s.Board i j) →
      ∀ g, ∃ g₂ s₂, fillBoard fuel g s = some (g₂, s₂, true) := by
  intro fuel
  induction fuel with
  | zero => intro s h; omega
  | succ fuel ih =>
    intro s h t htr htv hext g
    by_cases hrc : (findEmptyCell s).1 = -1
    · exact ⟨g, s, fillBoard_succ_none fuel g s hrc⟩
    · obtain ⟨fi, fj, hrc', hemp⟩ := findEmptyCell_some s hrc
      have hv := htr fi fj
      have hmv : (s.IsValidMove ((fi:ℕ):ℤ) ((fj:ℕ):ℤ) (t.Board fi fj)).2 = true := by
        rw [IsValidMove_snd_coe s fi fj _ ⟨by omega, by omega⟩]
        rw [isValidPlacement_eq_true_iff s fi fj _ (by omega)]
        intro i' j' hsee hcon
        have hne' : s.Board i' j' ≠ 0 := by omega
        have ht' : t.Board i' j' = s.Board i' j' := hext i' j' hne'
        have hpl := (IsValid_eq_true_iff t).mp htv i' j' (by rw [ht', hcon]; omega)
        exact (isValidPlacement_eq_true_iff t i' j' _ (by rw [ht', hcon]; omega)).mp
          hpl fi fj (sees_symm hsee) (by rw [ht', hcon])
      have hext1 : ∀ i j : Fin 9,
          (updateBoard s fi fj (t.Board fi fj)).Board i j ≠ 0 →
          t.Board i j = (updateBoard s fi fj (t.Board fi fj)).Board i j := by
        intro i j hne
        rw [updateBoard_apply] at hne ⊢
        by_cases hij : i = fi ∧ j = fj
        · rw [if_pos hij, hij.1, hij.2]
        · rw [if_neg hij] at hne ⊢
          exact hext i j hne
      have hcount : CountEmptyCells (updateBoard s fi fj (t.Board fi fj)) < fuel := by
        have := countEmpty_fill s fi fj (t.Board fi fj) hemp (by omega)
        omega
      have hsucc := fun g' => ih _ hcount t htr htv hext1 g'
      rw [fillBoard_succ_some fuel g s fi fj hrc']
      exact tryNums_complete (fillBoard fuel) (fillBoard_restore fuel) s fi fj hemp
        (fun g' num h1 h2 => fillBoard_isSome fuel _
          (by have := countEmpty_fill s fi fj num hemp (by omega); omega) g')
        (t.Board fi fj) hv.1 hv.2 hmv hsucc
        _ ((mem_getRandomNumbers g.rand _).mpr ⟨hv.1, hv.2⟩)
        (fun num hn => (mem_getRandomNumbers g.rand num).mp hn) _

theorem countEmpty_newSudoku : CountEmptyCells NewSudoku = 81 := by decide

/-- Every run of `GenerateComplete` succeeds (the sample solution witnesses
that the empty board is completable), and the resulting board is valid, in
range and fully filled. -/
theorem generateComplete_run (g : Generator) :
    ∃ (g₂ : Generator) (s₂ : Sudoku),
      fillBoard 82 g NewSudoku = some (g₂, s₂, true) ∧
      g.GenerateComplete = (g₂, s₂) ∧
      s₂.IsValid = true ∧ boardRange s₂ ∧ ∀ i j : Fin 9, s₂.Board i j ≠ 0 := by
  obtain ⟨g₂, s₂, hrun⟩ := fillBoard_complete 82 NewSudoku
    (by rw [countEmpty_newSudoku]; omega)
    (NewSudokuWithPuzzle GetSampleSolution) (by decide) (by decide)
    (fun i j h => absurd rfl h) g
  have hsound := fillBoard_sound 82 g NewSudoku g₂ s₂ hrun (by decide)
    (fun i j => ⟨le_refl 0, by show (0:ℤ) ≤ 9; norm_num⟩)
  refine ⟨g₂, s₂, hrun, ?_, hsound⟩
  unfold Generator.GenerateComplete
  rw [hrun]

theorem map_univ_eq_nineVals {α : Type} [Fintype α] [DecidableEq α]
    (hcard : Fintype.card α = 9) (f : α → ℤ) (hinj : Function.Injective f)
    (hmem : ∀ a, 1 ≤ f a ∧ f a ≤ 9) :
    Multiset.map f Finset.univ.val = nineVals := by
  have hnodup : (Multiset.map f Finset.univ.val).Nodup :=
    Multiset.Nodup.map hinj Finset.univ.nodup
  have himg : Finset.image f Finset.univ = Finset.Icc (1:ℤ) 9 := by
    apply Finset.eq_of_subset_of_card_le
    · intro x hx
      simp only [Finset.mem_image] at hx
      obtain ⟨a, -, rfl⟩ := hx
      rw [Finset.mem_Icc]
      exact hmem a
    · rw [Finset.card_image_of_injective _ hinj, Finset.card_univ, hcard,
        Int.card_Icc]
      decide
  calc Multiset.map f Finset.univ.val
      = (Multiset.map f Finset.univ.val).dedup :=
        (Multiset.dedup_eq_self.mpr hnodup).symm
    _ = (Finset.image f Finset.univ).val := by rw [Finset.image_val]
    _ = (Finset.Icc (1:ℤ) 9).val := by rw [himg]
    _ = nineVals := by decide

theorem row_injective (s : Sudoku) (hval : s.IsValid = true)
    (hfill : ∀ i j : Fin 9, s.Board i j ≠ 0) (r : Fin 9) :
    Function.Injective (fun j => s.Board r j) := by
  intro j j' hjj
  by_contra hne
  dsimp only at hjj
  have h0 := hfill r j
  have hpl := (IsValid_eq_true_iff s).mp hval r j h0
  exact (isValidPlacement_eq_true_iff s r j _ h0).mp hpl r j'
    (Or.inl ⟨rfl, fun hc => hne hc.symm⟩) hjj.symm

theorem col_injective (s : Sudoku) (hval : s.IsValid = true)
    (hfill : ∀ i j : Fin 9, s.Board i j ≠ 0) (c : Fin 9) :
    Function.Injective (fun i => s.Board i c) := by
  intro i i' hii
  by_contra hne
  dsimp only at hii
  have h0 := hfill i c
  have hpl := (IsValid_eq_true_iff s).mp hval i c h0
  exact (isValidPlacement_eq_true_iff s i c _ h0).mp hpl i' c
    (Or.inr (Or.inl ⟨rfl, fun hc => hne hc.symm⟩)) hii.symm

theorem boxCell_div (b : Fin 3) (p : Fin 3) : ((boxCell b p : Fin 9) : ℕ) / 3 = b := by
  show (3 * b.val + p.val) / 3 = b.val
  omega

theorem boxCell_inj {b : Fin 3} {p q : Fin 3} (h : boxCell b p = boxCell b q) :
    p = q := by
  have hv := congrArg Fin.val h
  simp only [boxCell] at hv
  exact Fin.ext (by omega)

theorem box_injective (s : Sudoku) (hval : s.IsValid = true)
    (hfill : ∀ i j : Fin 9, s.Board i j ≠ 0) (br bc : Fin 3) :
    Function.Injective
      (fun p : Fin 3 × Fin 3 => s.Board (boxCell br p.1) (boxCell bc p.2)) := by
  intro p q hpq
  by_contra hne
  dsimp only at hpq
  have h0 := hfill (boxCell br p.1) (boxCell bc p.2)
  have hpl := (IsValid_eq_true_iff s).mp hval (boxCell br p.1) (boxCell bc p.2) h0
  have hsee : sees (boxCell br p.1) (boxCell bc p.2) (boxCell br q.1) (boxCell bc q.2) := by
    refine Or.inr (Or.inr ⟨⟨?_, ?_⟩, ?_⟩)
    · rw [boxCell_div, boxCell_div]
    · rw [boxCell_div, boxCell_div]
    · by_cases h1 : p.1 = q.1
      · right
        intro hc
        apply hne
        exact Prod.ext h1 (boxCell_inj hc).symm
      · left
        intro hc
        exact h1 (boxCell_inj hc).symm
  exact (isValidPlacement_eq_true_iff s _ _ _ h0).mp hpl _ _ hsee hpq.symm

theorem removeCells_snd (g : Generator) (complete : Sudoku) (N : Int) :
    (removeCells g complete N).2
      = removeLoop N complete 0 (shufflePositions g.rand).2 := rfl

theorem removeCells_count (g : Generator) (complete : Sudoku) (N : Int)
    (hc : ∀ i j : Fin 9, complete.Board i j ≠ 0) (hN : 0 ≤ N) :
    CountEmptyCells (removeCells g complete N).2 = min N.toNat 81 := by
  rw [removeCells_snd]
  rw [removeLoop_count (shufflePositions g.rand).2 N 0 complete hN
    (shufflePositions_nodup g.rand) ?_]
  · rw [countEmpty_eq_zero complete hc, shufflePositions_length]
    omega
  · intro q hq
    obtain ⟨i, j, hij⟩ := shufflePositions_mem g.rand q hq
    exact ⟨i, j, hij, hc i j⟩

theorem removeCells_preserves (g : Generator) (complete : Sudoku) (N : Int)
    (i j : Fin 9) (h : (removeCells g complete N).2.Board i j ≠ 0) :
    (removeCells g complete N).2.Board i j = complete.Board i j := by
  rw [removeCells_snd] at h ⊢
  exact removeLoop_preserves _ N 0 complete i j h

theorem generatePuzzle_eq (g : Generator) (d : Int) (g₂ : Generator) (s₂ : Sudoku)
    (heq : g.GenerateComplete = (g₂, s₂)) :
    g.GeneratePuzzle d = createPuzzle g₂ s₂ d := by
  unfold Generator.GeneratePuzzle
  rw [heq]

theorem intn_lt (r : RNG) (n : Nat) (h : 0 < n) : (r.intn n).1 < n :=
  Nat.mod_lt _ h

theorem createPuzzle_shape (g : Generator) (complete : Sudoku) (d : Int) :
    ∃ (g₃ : Generator) (N : Int),
      createPuzzle g complete d = removeCells g₃ complete N ∧ 0 ≤ N ∧ N ≤ 81 ∧
      (d = Easy → 35 ≤ N ∧ N ≤ 45) ∧
      (d = Medium → 46 ≤ N ∧ N ≤ 55) ∧
      (d = Hard → 50 ≤ N ∧ N ≤ 59) ∧
      (d = Expert → 54 ≤ N ∧ N ≤ 63) ∧
      (d ≠ Easy → d ≠ Medium → d ≠ Hard → d ≠ Expert → N = 40) := by
  by_cases h0 : d = Easy
  · have hj := intn_lt g.rand 11 (by omega)
    refine ⟨⟨(g.rand.intn 11).2⟩, 35 + ((g.rand.intn 11).1 : ℤ), ?_, by omega,
      by omega, fun _ => ⟨by omega, by omega⟩, ?_, ?_, ?_, fun hne _ _ _ => absurd h0 hne⟩
    · subst h0; unfold createPuzzle; rw [if_pos rfl]
    · intro hc; exact absurd (h0.symm.trans hc) (by decide)
    · intro hc; exact absurd (h0.symm.trans hc) (by decide)
    · intro hc; exact absurd (h0.symm.trans hc) (by decide)
  · by_cases h1 : d = Medium
    · have hj := intn_lt g.rand 10 (by omega)
      refine ⟨⟨(g.rand.intn 10).2⟩, 46 + ((g.rand.intn 10).1 : ℤ), ?_, by omega,
        by omega, fun hc => absurd hc h0, fun _ => ⟨by omega, by omega⟩, ?_, ?_,
        fun _ hne _ _ => absurd h1 hne⟩
      · subst h1; unfold createPuzzle; rw [if_neg (by decide), if_pos rfl]
      · intro hc; exact absurd (h1.symm.trans hc) (by decide)
      · intro hc; exact absurd (h1.symm.trans hc) (by decide)
    · by_cases h2 : d = Hard
      · have hj := intn_lt g.rand 10 (by omega)
        refine ⟨⟨(g.rand.intn 10).2⟩, 50 + ((g.rand.intn 10).1 : ℤ), ?_, by omega,
          by omega, fun hc => absurd hc h0, fun hc => absurd hc h1,
          fun _ => ⟨by omega, by omega⟩, ?_, fun _ _ hne _ => absurd h2 hne⟩
        · subst h2; unfold createPuzzle
          rw [if_neg (by decide), if_neg (by decide), if_pos rfl]
        · intro hc; exact absurd (h2.symm.trans hc) (by decide)
      · by_cases h3 : d = Expert
        · have hj := intn_lt g.rand 10 (by omega)
          refine ⟨⟨(g.rand.intn 10).2⟩, 54 + ((g.rand.intn 10).1 : ℤ), ?_, by omega,
            by omega, fun hc => absurd hc h0, fun hc => absurd hc h1,
            fun hc => absurd hc h2, fun _ => ⟨by omega, by omega⟩,
            fun _ _ _ hne => absurd h3 hne⟩
          subst h3; unfold createPuzzle
          rw [if_neg (by decide), if_neg (by decide), if_neg (by decide), if_pos rfl]
        · refine ⟨g, 40, ?_, by omega, by omega, fun hc => absurd hc h0,
            fun hc => absurd hc h1, fun hc => absurd hc h2, fun hc => absurd hc h3,
            fun _ _ _ _ => rfl⟩
          unfold createPuzzle
          rw [if_neg h0, if_neg h1, if_neg h2, if_neg h3]

theorem clampRatio_nonneg (ratio : ℚ) : 0 ≤ clampRatio ratio := by
  unfold clampRatio
  split_ifs <;> linarith

theorem clampRatio_le_one (ratio : ℚ) : clampRatio ratio ≤ 1 := by
  unfold clampRatio
  split_ifs <;> linarith

theorem generatePuzzleWithEmptyRatio_eq (g g₂ : Generator) (s₂ : Sudoku) (ratio : ℚ)
    (heq : g.GenerateComplete = (g₂, s₂)) :
    g.GeneratePuzzleWithEmptyRatio ratio
      = removeCells g₂ s₂ (Int.floor ((81:ℚ) * clampRatio ratio)) := by
  unfold Generator.GeneratePuzzleWithEmptyRatio clampRatio
  rw [heq]

theorem floorRatio_bounds (ratio : ℚ) :
    0 ≤ Int.floor ((81:ℚ) * clampRatio ratio) ∧
      Int.floor ((81:ℚ) * clampRatio ratio) ≤ 81 := by
  constructor
  · apply Int.floor_nonneg.mpr
    have := clampRatio_nonneg ratio
    positivity
  · have h1 : (81:ℚ) * clampRatio ratio ≤ 81 := by
      have := clampRatio_le_one ratio
      nlinarith
    calc Int.floor ((81:ℚ) * clampRatio ratio) ≤ Int.floor ((81:ℚ)) :=
          Int.floor_le_floor h1
      _ = 81 := by norm_num

/-- Empty-cell count of `GeneratePuzzleWithEmptyRatio`: exactly
`⌊81 * clamped ratio⌋` cells are removed from the (fully filled) solution. -/
theorem ratio_count (g : Generator) (ratio : ℚ) :
    CountEmptyCells (g.GeneratePuzzleWithEmptyRatio ratio).2
      = (Int.floor ((81:ℚ) * clampRatio ratio)).toNat := by
  obtain ⟨g₂, s₂, hrun, heq, hval, hrange, hfill⟩ := generateComplete_run g
  rw [generatePuzzleWithEmptyRatio_eq g g₂ s₂ ratio heq]
  rw [removeCells_count g₂ s₂ _ hfill (floorRatio_bounds ratio).1]
  have := (floorRatio_bounds ratio).2
  omega

/-! ## Claims C1, C4, C5, C6, C7, C10 -/

/-- C1: every board returned by `GenerateComplete` has all 81 cells non-zero,
satisfies `IsValid`, and every row, column and 3x3 box holds exactly the
multiset `{1..9}`. -/
theorem generateComplete_spec :
    ∀ g : Generator,
      (∀ i j : Fin 9, (g.GenerateComplete).2.Board i j ≠ 0) ∧
      (g.GenerateComplete).2.IsValid = true ∧
      (∀ r : Fin 9, rowVals (g.GenerateComplete).2 r = nineVals) ∧
      (∀ c : Fin 9, colVals (g.GenerateComplete).2 c = nineVals) ∧
      (∀ br bc : Fin 3, boxVals (g.GenerateComplete).2 br bc = nineVals) := by
  intro g
  obtain ⟨g₂, s₂, hrun, heq, hval, hrange, hfill⟩ := generateComplete_run g
  rw [heq]
  dsimp only
  refine ⟨hfill, hval, fun r => ?_, fun c => ?_, fun br bc => ?_⟩
  · exact map_univ_eq_nineVals (by simp) _ (row_injective s₂ hval hfill r)
      (fun j => ⟨by have h1 := hrange r j; have h2 := hfill r j; omega,
        (hrange r j).2⟩)
  · exact map_univ_eq_nineVals (by simp) _ (col_injective s₂ hval hfill c)
      (fun i => ⟨by have h1 := hrange i c; have h2 := hfill i c; omega,
        (hrange i c).2⟩)
  · exact map_univ_eq_nineVals (by simp) _ (box_injective s₂ hval hfill br bc)
      (fun p =>
        ⟨by have h1 := hrange (boxCell br p.1) (boxCell bc p.2)
            have h2 := hfill (boxCell br p.1) (boxCell bc p.2)
            omega,
         (hrange (boxCell br p.1) (boxCell bc p.2)).2⟩)

/-- Witness for C1 at the generator seeded with 1: validity plus the first
row's multiset. -/
theorem generateComplete_spec_witness :
    ((NewGeneratorWithSeed 1).GenerateComplete).2.IsValid = true ∧
      rowVals ((NewGeneratorWithSeed 1).GenerateComplete).2 0 = nineVals :=
  ⟨(generateComplete_spec (NewGeneratorWithSeed 1)).2.1,
   (generateComplete_spec (NewGeneratorWithSeed 1)).2.2.1 0⟩

/-- C4: for each named difficulty, `GeneratePuzzle` leaves an empty-cell count
in the documented removal range (Easy 35-45, Medium 46-55, Hard 50-59,
Expert 54-63), and every non-zero cell of the puzzle equals the corresponding
cell of the complete solution it was derived from. -/
theorem generatePuzzle_spec :
    ∀ (g : Generator) (d : Int),
      (d = Easy → 35 ≤ CountEmptyCells (g.GeneratePuzzle d).2 ∧
        CountEmptyCells (g.GeneratePuzzle d).2 ≤ 45) ∧
      (d = Medium → 46 ≤ CountEmptyCells (g.GeneratePuzzle d).2 ∧
        CountEmptyCells (g.GeneratePuzzle d).2 ≤ 55) ∧
      (d = Hard → 50 ≤ CountEmptyCells (g.GeneratePuzzle d).2 ∧
        CountEmptyCells (g.GeneratePuzzle d).2 ≤ 59) ∧
      (d = Expert → 54 ≤ CountEmptyCells (g.GeneratePuzzle d).2 ∧
        CountEmptyCells (g.GeneratePuzzle d).2 ≤ 63) ∧
      (∀ i j : Fin 9, (g.GeneratePuzzle d).2.Board i j ≠ 0 →
        (g.GeneratePuzzle d).2.Board i j = (g.GenerateComplete).2.Board i j) := by
  intro g d
  obtain ⟨g₂, s₂, hrun, heq, hval, hrange, hfill⟩ := generateComplete_run g
  obtain ⟨g₃, N, hshape, hN0, hN81, hE, hM, hH, hX, -⟩ :=
    createPuzzle_shape g₂ s₂ d
  have hpz : g.GeneratePuzzle d = removeCells g₃ s₂ N :=
    (generatePuzzle_eq g d g₂ s₂ heq).trans hshape
  have hcount : CountEmptyCells (g.GeneratePuzzle d).2 = N.toNat := by
    rw [hpz, removeCells_count g₃ s₂ N hfill hN0]
    omega
  refine ⟨fun hd => ?_, fun hd => ?_, fun hd => ?_, fun hd => ?_, fun i j h => ?_⟩
  · have := hE hd; omega
  · have := hM hd; omega
  · have := hH hd; omega
  · have := hX hd; omega
  · rw [hpz] at h ⊢
    rw [heq]
    exact removeCells_preserves g₃ s₂ N i j h

/-- Witness for C4 at seed 7, difficulty Easy. -/
theorem generatePuzzle_spec_witness :
    35 ≤ CountEmptyCells ((NewGeneratorWithSeed 7).GeneratePuzzle Easy).2 ∧
      CountEmptyCells ((NewGeneratorWithSeed 7).GeneratePuzzle Easy).2 ≤ 45 :=
  (generatePuzzle_spec (NewGeneratorWithSeed 7) Easy).1 rfl

/-- C5 (amended): `GeneratePuzzleWithEmptyRatio` clamps the ratio to `[0, 1]`
and removes exactly `⌊81 * ratio⌋` cells (Go's `int(...)` conversion
truncates; it does not round); with ratio 0 it returns a complete solved
board and with ratio 1 an all-empty board. -/
theorem generatePuzzleWithEmptyRatio_spec :
    ∀ (g : Generator) (ratio : ℚ),
      CountEmptyCells (g.GeneratePuzzleWithEmptyRatio ratio).2
        = (Int.floor ((81:ℚ) * clampRatio ratio)).toNat ∧
      (ratio = 0 → (g.GeneratePuzzleWithEmptyRatio ratio).2.IsComplete = true) ∧
      (ratio = 1 →
        ∀ i j : Fin 9, (g.GeneratePuzzleWithEmptyRatio ratio).2.Board i j = 0) := by
  intro g ratio
  obtain ⟨g₂, s₂, hrun, heq, hval, hrange, hfill⟩ := generateComplete_run g
  refine ⟨ratio_count g ratio, fun h0 => ?_, fun h1 => ?_⟩
  · subst h0
    rw [generatePuzzleWithEmptyRatio_eq g g₂ s₂ 0 heq]
    have hcl : clampRatio 0 = 0 := by norm_num [clampRatio]
    rw [hcl]
    norm_num
    rw [removeCells_snd, removeLoop_stop _ _ _ _ (by omega)]
    rw [Sudoku.IsComplete, Bool.and_eq_true, decide_eq_true_eq]
    exact ⟨hfill, hval⟩
  · subst h1
    have hcl : clampRatio 1 = 1 := by norm_num [clampRatio]
    have hcnt := ratio_count g 1
    rw [hcl] at hcnt
    norm_num at hcnt
    exact countEmpty_eq_81 _ hcnt

/-- Witness for C5's amended claim at ratio 0: count matches and the board is
complete. -/
theorem generatePuzzleWithEmptyRatio_spec_witness :
    ((NewGeneratorWithSeed 2).GeneratePuzzleWithEmptyRatio 0).2.IsComplete = true ∧
      CountEmptyCells ((NewGeneratorWithSeed 2).GeneratePuzzleWithEmptyRatio 0).2
        = (Int.floor ((81:ℚ) * clampRatio 0)).toNat :=
  ⟨(generatePuzzleWithEmptyRatio_spec (NewGeneratorWithSeed 2) 0).2.1 rfl,
   (generatePuzzleWithEmptyRatio_spec (NewGeneratorWithSeed 2) 0).1⟩

/-- C5 counterexample: at ratio 9/10 the code removes `int(81*0.9) = 72`
cells, while `round(81*0.9) = 73`: the empty-cell count is not
`round(81*ratio)`. -/
theorem generatePuzzleWithEmptyRatio_counterexample :
    CountEmptyCells
        ((NewGeneratorWithSeed 5).GeneratePuzzleWithEmptyRatio (9/10)).2 = 72 ∧
      round ((81:ℚ) * (9/10)) = 73 ∧
      CountEmptyCells
          ((NewGeneratorWithSeed 5).GeneratePuzzleWithEmptyRatio (9/10)).2
        ≠ (round ((81:ℚ) * (9/10))).toNat := by
  have hcl : clampRatio (9/10 : ℚ) = 9/10 := by norm_num [clampRatio]
  have hfl : Int.floor ((81:ℚ) * ((9:ℚ)/10)) = 72 := by
    rw [show ((81:ℚ) * ((9:ℚ)/10)) = 729/10 by norm_num]
    rw [Int.floor_eq_iff]; norm_num
  have hcount := ratio_count (NewGeneratorWithSeed 5) (9/10)
  rw [hcl, hfl] at hcount
  have hround : round ((81:ℚ) * (9/10)) = 73 := by
    rw [round_eq, show ((81:ℚ) * (9/10) + 1/2) = 367/5 by norm_num]
    rw [Int.floor_eq_iff]; norm_num
  refine ⟨by rw [hcount]; rfl, hround, ?_⟩
  rw [hcount, hround]
  omega

/-- C6: the backtracking fill never exhausts a fuel exceeding the number of
empty cells (the recursive call tree has depth at most `CountEmptyCells s`,
at most 81), and on a fresh empty board it terminates successfully with a
complete valid grid. -/
theorem fillBoard_termination_spec :
    (∀ (s : Sudoku) (g : Generator) (fuel : Nat), CountEmptyCells s < fuel →
      (fillBoard fuel g s).isSome = true) ∧
    (∀ g : Generator, ∃ (g₂ : Generator) (s₂ : Sudoku),
      fillBoard 82 g NewSudoku = some (g₂, s₂, true) ∧ s₂.IsComplete = true) := by
  refine ⟨fun s g fuel h => fillBoard_isSome fuel s h g, fun g => ?_⟩
  obtain ⟨g₂, s₂, hrun, heq, hval, hrange, hfill⟩ := generateComplete_run g
  refine ⟨g₂, s₂, hrun, ?_⟩
  rw [Sudoku.IsComplete, Bool.and_eq_true, decide_eq_true_eq]
  exact ⟨hfill, hval⟩

/-- Witness for C6: on the already-complete sample solution, one unit of fuel
suffices. -/
theorem fillBoard_termination_spec_witness :
    (fillBoard 1 (NewGeneratorWithSeed 3)
      (NewSudokuWithPuzzle GetSampleSolution)).isSome = true :=
  fillBoard_termination_spec.1 (NewSudokuWithPuzzle GetSampleSolution)
    (NewGeneratorWithSeed 3) 1 (by decide)

/-- C7: two generators constructed with the same explicit seed produce
identical sequences of boards for the same sequence of
`GenerateComplete`/`GeneratePuzzle` calls. -/
theorem generator_determinism :
    ∀ (seed : Int) (calls : List GenCall) (g1 g2 : Generator),
      g1 = NewGeneratorWithSeed seed → g2 = NewGeneratorWithSeed seed →
      runCalls g1 calls = runCalls g2 calls := by
  intro seed calls g1 g2 h1 h2
  rw [h1, h2]

/-- Witness for C7 at seed 42 with one call of each kind. -/
theorem generator_determinism_witness :
    runCalls (NewGeneratorWithSeed 42) [GenCall.complete, GenCall.puzzle Easy]
      = runCalls (NewGeneratorWithSeed 42)
          [GenCall.complete, GenCall.puzzle Easy] :=
  generator_determinism 42 [GenCall.complete, GenCall.puzzle Easy] _ _ rfl rfl

/-- C10: for any `Difficulty` value other than the four named ones,
`createPuzzle` removes the default 40 cells, so the puzzle has exactly 40
empty cells. -/
theorem generatePuzzle_default_spec :
    ∀ (g : Generator) (d : Int), d ≠ Easy → d ≠ Medium → d ≠ Hard → d ≠ Expert →
      CountEmptyCells (g.GeneratePuzzle d).2 = 40 := by
  intro g d h0 h1 h2 h3
  obtain ⟨g₂, s₂, hrun, heq, hval, hrange, hfill⟩ := generateComplete_run g
  obtain ⟨g₃, N, hshape, hN0, hN81, -, -, -, -, hdef⟩ := createPuzzle_shape g₂ s₂ d
  have hN : N = 40 := hdef h0 h1 h2 h3
  have hpz : g.GeneratePuzzle d = removeCells g₃ s₂ N :=
    (generatePuzzle_eq g d g₂ s₂ heq).trans hshape
  rw [hpz, removeCells_count g₃ s₂ N hfill hN0, hN]
  rfl

/-- Witness for C10 at the out-of-range difficulty 7. -/
theorem generatePuzzle_default_spec_witness :
    CountEmptyCells ((NewGeneratorWithSeed 9).GeneratePuzzle 7).2 = 40 :=
  generatePuzzle_default_spec (NewGeneratorWithSeed 9) 7 (by decide) (by decide)
    (by decide) (by decide)

/-- C9: in-range `SetCell` returns true and the written value is read back by
`GetCell`; out-of-range arguments make `SetCell` return false leaving the
board untouched, and make `GetCell` return the sentinel -1. -/
theorem setCell_getCell_spec :
    ∀ (s : Sudoku) (row col value : Int),
      (Sudoku.isValidPosition row col → Sudoku.isValidValue value →
        (s.SetCell row col value).2 = true ∧
        (s.SetCell row col value).1.GetCell row col = value) ∧
      (¬(Sudoku.isValidPosition row col ∧ Sudoku.isValidValue value) →
        (s.SetCell row col value).2 = false ∧ (s.SetCell row col value).1 = s) ∧
      (¬Sudoku.isValidPosition row col → s.GetCell row col = -1) := by
  intro s row col value
  refine ⟨fun hp hv => ?_, fun hn => ?_, fun hn => ?_⟩
  · rw [Sudoku.SetCell, dif_pos ⟨hp, hv⟩]
    refine ⟨rfl, ?_⟩
    rw [Sudoku.GetCell, dif_pos hp]
    exact updateBoard_apply_same s _ _ value
  · rw [Sudoku.SetCell, dif_neg hn]
    exact ⟨rfl, rfl⟩
  · rw [Sudoku.GetCell, dif_neg hn]

/-- Witness for C9: both the in-range round trip (at (0, 0) with value 5) and
the out-of-range sentinel (at row 9). -/
theorem setCell_getCell_spec_witness :
    ((NewSudoku.SetCell 0 0 5).2 = true ∧
      (NewSudoku.SetCell 0 0 5).1.GetCell 0 0 = 5) ∧
    NewSudoku.GetCell 9 0 = -1 :=
  ⟨(setCell_getCell_spec NewSudoku 0 0 5).1 (by omega) (by omega),
   (setCell_getCell_spec NewSudoku 9 0 5).2.2 (by omega)⟩
